import Mathlib

/-!
Verification development for the youtube-chat-order pipeline
(`src/youtube_chat_order_clean.py`).

The program is a batch text-parsing pipeline over chat messages.  We shallowly
embed its core functions over `List Char` (Python strings), mirroring the
source line by line:

* `clean_product_name`  (source lines 48-97): the Name Cleaner;
* `extract_product_info` (lines 99-131): the Product Extractor;
* `get_valid_buyers`    (lines 133-167): the Buyer Discoverer;
* `parse_order_info`    (lines 169-226): the Order Tokenizer;
* `process_excel`       (lines 228-298): the Pipeline Orchestrator;
* `buyer_summary`       (lines 398-406): the per-buyer aggregation of `main`.

Modelling conventions:

* Python strings are `List Char`; `str.strip`, `str.split`, slicing and
  `startswith` are modelled with `dropWhile`/`takeWhile`/`drop`/`isPrefixOf`.
* The regexes of the source are small enough to unfold into explicit scanning
  functions; where greedy backtracking is observable (the `^(\d+)[\s.]*(.+)`
  product-number pattern) it is modelled explicitly.
* `\d` and `\s` are modelled as ASCII digits and ASCII whitespace (the escape
  hatch to full Unicode categories is irrelevant for the Korean chat inputs
  the program is written for, which use ASCII digits and spaces).
* Loops that consume a buffer are written with an explicit fuel argument that
  is structurally decreasing, so every definition evaluates inside `decide`;
  the top level passes fuel `length + 1`, which is proven sufficient
  (claim C5 is exactly this termination property).
* A Python `set` has unspecified iteration order; the valid-buyer set is
  modelled as a deduplicated `List`, and theorems about order-sensitive code
  quantify over (or exhibit) enumerations of that set.
-/

/-- ASCII whitespace, the characters matched by Python `str.strip`/`\s`
on the inputs this program handles. -/
def pySpace (c : Char) : Bool :=
  c = ' ' || c = '\t' || c = '\n' || c = '\r' || c = '\x0b' || c = '\x0c'

/-- ASCII decimal digit, the model of the regex class `\d`. -/
def isDig (c : Char) : Bool :=
  decide (48 ≤ c.toNat ∧ c.toNat ≤ 57)

/-- Hangul syllable, the regex range `가-힣`. -/
def isHangul (c : Char) : Bool :=
  decide ('가' ≤ c ∧ c ≤ '힣')

/-- Latin letter, the regex ranges `a-zA-Z`. -/
def isLatin (c : Char) : Bool :=
  decide (('a' ≤ c ∧ c ≤ 'z') ∨ ('A' ≤ c ∧ c ≤ 'Z'))

/-- The regex class `[가-힣a-zA-Z]` used by the Name Cleaner's buyer-tag
pattern (source line 93). -/
def isWordChar (c : Char) : Bool :=
  isHangul c || isLatin c

/-- The regex class `[가-힣a-zA-Z!~]` used for buyer-name matching
(source lines 161 and 204). -/
def isNameChar (c : Char) : Bool :=
  isHangul c || isLatin c || c = '!' || c = '~'

/-- Python `int()` on a nonempty decimal-digit string. -/
def parseNat (ds : List Char) : Nat :=
  ds.foldl (fun a c => 10 * a + (c.toNat - 48)) 0

/-- Python `str.strip()`: drop leading and trailing whitespace. -/
def pyStrip (s : List Char) : List Char :=
  ((s.dropWhile pySpace).reverse.dropWhile pySpace).reverse

/-- Python `msg.split('/')[-1]`: the segment after the last `'/'`
(the whole string when no `'/'` occurs). -/
def afterLastSlash (s : List Char) : List Char :=
  (s.reverse.takeWhile (fun c => decide (c ≠ '/'))).reverse

/-- Python `msg.split('/')[0]`: the segment before the first `'/'`. -/
def beforeFirstSlash (s : List Char) : List Char :=
  s.takeWhile (fun c => decide (c ≠ '/'))

/-- Fueled worker for `words`; the fuel is structurally decreasing so the
definition evaluates in the kernel. Fuel `s.length` always suffices. -/
def wordsF : Nat → List Char → List (List Char)
  | _, [] => []
  | 0, s => [s]
  | f+1, c :: cs =>
      if pySpace c then wordsF f cs
      else (c :: cs.takeWhile (fun x => !pySpace x)) ::
             wordsF f (cs.dropWhile (fun x => !pySpace x))

/-- Python `str.split()` with no argument: split on runs of whitespace,
discarding empty pieces. -/
def words (s : List Char) : List (List Char) :=
  wordsF s.length s

/-- Python `' '.join(ws)`. -/
def joinWords : List (List Char) → List Char
  | [] => []
  | [w] => w
  | w :: ws => w ++ ' ' :: joinWords ws

/-- The static boilerplate-phrase table of `clean_product_name`
(source lines 51-80).  All phrases are Hangul literals, so the
`re.IGNORECASE` flag on them is a no-op and each `re.sub(pattern, '', s)`
is literal-substring removal. -/
def excludePatterns : List (List Char) :=
  ["선착순".data, "한정".data, "당일배송".data, "익일배송".data, "품절임박".data,
   "마감임박".data, "재고한정".data, "한분만".data, "한분".data, "두분만".data,
   "두분".data, "세분만".data, "세분".data, "네분만".data, "네분".data,
   "다섯분만".data, "다섯분".data, "여섯분만".data, "여섯분".data, "일곱분만".data,
   "일곱분".data, "여덟분만".data, "여덟분".data, "아홉분만".data, "아홉분".data,
   "열분만".data, "열분".data, "출발".data]

/-- Fueled worker for literal-pattern removal: one left-to-right scan of `s`
removing non-overlapping occurrences of `p`, exactly like
`re.sub(p, '', s)` for a literal pattern `p`.  Fuel `s.length` suffices. -/
def removeF (p : List Char) : Nat → List Char → List Char
  | _, [] => []
  | 0, s => s
  | f+1, c :: cs =>
      if p ≠ [] ∧ p.isPrefixOf (c :: cs) then removeF p f ((c :: cs).drop p.length)
      else c :: removeF p f cs

/-- `re.sub(p, '', s)` for a literal (metacharacter-free) pattern `p`. -/
def removeAllSub (p s : List Char) : List Char :=
  removeF p s.length s

/-- Head match of the buyer-tag regex `[가-힣a-zA-Z]+\d+(?=\s|$)`
(source line 93).  Both quantifiers are greedy and backtracking cannot help
(shrinking the digit run lands on a digit, which is neither `\s` nor the
end; shrinking the letter run lands on a letter, where `\d+` fails), so the
regex matches at the head iff the maximal letter run and the following
maximal digit run are nonempty and followed by whitespace or end of string.
Python's `$` also matches before a final newline, which is subsumed because
`'\n'` is whitespace.  Returns `some n` when the match consumes `n + 1`
characters (the offset keeps the recursion in `subTagF` structural). -/
def tagSplit (s : List Char) : Option Nat :=
  let L := s.takeWhile isWordChar
  if L = [] then none
  else
    let D := (s.drop L.length).takeWhile isDig
    if D = [] then none
    else
      match s.drop (L.length + D.length) with
      | [] => some (L.length + D.length - 1)
      | c :: _ => if pySpace c then some (L.length + D.length - 1) else none

/-- Fueled worker for the buyer-tag substitution: a left-to-right scan
replacing each match of the tag regex by the empty string (lookaheads
consume nothing).  Fuel `s.length` suffices. -/
def subTagF : Nat → List Char → List Char
  | _, [] => []
  | 0, s => s
  | f+1, c :: cs =>
      match tagSplit (c :: cs) with
      | some n => subTagF f (cs.drop n)
      | none => c :: subTagF f cs

/-- `re.sub(r'[가-힣a-zA-Z]+\d+(?=\s|$)', '', s)` (source line 93). -/
def subTag (s : List Char) : List Char :=
  subTagF s.length s

/-- The Name Cleaner `clean_product_name` (source lines 48-97):
keep the text before the first `'/'` (trimmed) when a `'/'` is present,
remove every boilerplate phrase, remove embedded buyer tags, and collapse
whitespace runs to single spaces. -/
def clean_product_name (name : List Char) : List Char :=
  let n1 := if '/' ∈ name then pyStrip (beforeFirstSlash name) else name
  let n2 := excludePatterns.foldl (fun acc p => removeAllSub p acc) n1
  let n3 := subTag n2
  pyStrip (joinWords (words n3))

/-- Downward search used by `matchNumberPattern`: the largest `k`, at most
the maximal `[\s.]` run of `r1`, such that the character at position `k`
exists and is not a newline (so `(.+)` can start there).  This is exactly
the backtracking of the greedy `[\s.]*` in `^(\d+)[\s.]*(.+)`. -/
def sepBacktrack (r1 : List Char) : Nat → Option Nat
  | 0 =>
      match r1.head? with
      | some c => if c = '\n' then none else some 0
      | none => none
  | k+1 =>
      match (r1.drop (k+1)).head? with
      | some c => if c = '\n' then sepBacktrack r1 k else some (k+1)
      | none => sepBacktrack r1 k

/-- The product-number pattern `re.match(r'^(\d+)[\s.]*(.+)', s)` (source
line 103), with Python's greedy backtracking made explicit: `\d+` takes
the maximal leading digit run; `[\s.]*` takes the maximal run of
whitespace/periods that still leaves a character for `(.+)` (a dot does
not match a newline); if no split works, `\d+` gives back its last digit
(possible when the digit run has length at least 2), after which `(.+)`
matches starting at that digit.  Returns `(group 1, group 2)`. -/
def matchNumberPattern (s : List Char) : Option (List Char × List Char) :=
  let d := s.takeWhile isDig
  if d = [] then none
  else
    let r1 := s.drop d.length
    match sepBacktrack r1 ((r1.takeWhile (fun c => pySpace c || c = '.')).length) with
    | some k => some (d, (r1.drop k).takeWhile (fun c => decide (c ≠ '\n')))
    | none =>
        if 2 ≤ d.length then
          some (d.dropLast, (s.drop (d.length - 1)).takeWhile (fun c => decide (c ≠ '\n')))
        else none

/-- The price search `re.search(r'(\d{3,6})원', s)` (source line 113).
Scanning left to right, the pattern matches at a position iff the maximal
digit run `run` there satisfies `3 ≤ |run| ≤ 6` and is immediately followed
by `'원'` (for a longer run every allowed width lands inside the run, so
the scan just advances one character).  Returns the text before the match
together with the digit group. -/
def searchPrice : List Char → Option (List Char × List Char)
  | [] => none
  | c :: cs =>
      let run := (c :: cs).takeWhile isDig
      if 3 ≤ run.length ∧ run.length ≤ 6 ∧ ((c :: cs).drop run.length).head? = some '원' then
        some ([], run)
      else
        match searchPrice cs with
        | some (pre, ds) => some (c :: pre, ds)
        | none => none

/-- The defensive re-trim `re.sub(r'\s*\d+원\s*$', '', name)` (source
line 124): remove a trailing `<spaces><digits>원<spaces>` suffix, if any. -/
def stripTrailingWon (name : List Char) : List Char :=
  match (name.reverse.dropWhile pySpace) with
  | '원' :: rest =>
      let ds := rest.takeWhile isDig
      if ds = [] then name
      else ((rest.drop ds.length).dropWhile pySpace).reverse
  | _ => name

/-- The Product Extractor `extract_product_info` (source lines 99-131).
Returns `some (productNumber, cleanedName, price)` or `none`; the source
returns `(None, None, None)` on every failure path.  Note that the
pre-clean name must be nonempty and the price nonzero (line 122), but the
returned name is cleaned afterwards (line 126) and may be empty. -/
def extract_product_info (msg : List Char) : Option (Nat × List Char × Nat) :=
  match matchNumberPattern (pyStrip msg) with
  | none => none
  | some (d, g2) =>
      let productNumber := parseNat d
      let remaining := pyStrip g2
      match searchPrice remaining with
      | none => none
      | some (pre, ds) =>
          let price := parseNat ds
          let rawName := pyStrip pre
          if rawName ≠ [] ∧ price ≠ 0 then
            some (productNumber, clean_product_name (stripTrailingWon rawName), price)
          else none

/-- One token's contribution in `get_valid_buyers` (source lines 148-165):
if any manual ID is a prefix of the token the token contributes nothing new
(the manual IDs are already in the set); otherwise the leading
`[가-힣a-zA-Z!~]+` run, if nonempty, is a discovered buyer name. -/
def heuristicOfToken (manual : List (List Char)) (part : List Char) : Option (List Char) :=
  if manual.any (fun m => m.isPrefixOf part) then none
  else
    let L := part.takeWhile isNameChar
    if L = [] then none else some L

/-- The Buyer Discoverer `get_valid_buyers` (source lines 133-167): the
manual IDs plus every heuristic name discovered in any record's post-`'/'`
segment.  The source builds a Python `set`; we model its contents as a
deduplicated list (iteration order of the set is unspecified, so theorems
about order-sensitive consumers quantify over enumerations). -/
def get_valid_buyers (msgs : List (List Char)) (manual : List (List Char)) : List (List Char) :=
  (manual ++ msgs.flatMap (fun raw =>
      let msg := pyStrip raw
      if '/' ∈ msg then
        (words (pyStrip (afterLastSlash msg))).filterMap (heuristicOfToken manual)
      else [])).dedup

/-- Pass 1 of the Order Tokenizer's loop body (source lines 188-199): the
first ID in the valid-buyer enumeration that is a literal prefix of the
buffer, with the following digit run as quantity (default 1).  Returns
`some (buyer, matchLength, quantity)`. -/
def pass1 (vb : List (List Char)) (r : List Char) : Option (List Char × Nat × Nat) :=
  match vb.find? (fun b => b.isPrefixOf r) with
  | none => none
  | some b =>
      let dr := (r.drop b.length).takeWhile isDig
      if dr = [] then some (b, b.length, 1)
      else some (b, b.length + dr.length, parseNat dr)

/-- Pass 2 of the loop body (source lines 202-212): the regex
`([가-힣a-zA-Z!~]+)(\d*)` at the head of the buffer, accepted only when the
letter run is exactly a member of the valid-buyer set.  `q0` is the value
the Python `quantity` variable already holds (it is only replaced when the
digit group is nonempty, mirroring line 210). -/
def pass2 (vb : List (List Char)) (r : List Char) (q0 : Nat) :
    Option (List Char × Nat × Nat) :=
  let L := r.takeWhile isNameChar
  if L = [] then none
  else if L ∈ vb then
    let D := (r.drop L.length).takeWhile isDig
    if D = [] then some (L, L.length, q0)
    else some (L, L.length + D.length, parseNat D)
  else none

/-- One iteration of the tokenizer loop (source lines 184-219) on a
stripped nonempty buffer: pass 1, then pass 2 when pass 1 found nothing
truthy (Python `if not found_buyer` treats the empty string as no find),
then either emit the pair and advance by the match length or drop one
character.  Returns `(emitted pair?, new buffer)`. -/
def parseIter (vb : List (List Char)) (r : List Char) :
    Option (List Char × Nat) × List Char :=
  match pass1 vb r with
  | some (b, ml, q) =>
      if b = [] then
        match pass2 vb r q with
        | some (b2, _ml2, q2) => (some (b2, q2), r.drop _ml2)
        | none => (none, r.drop 1)
      else (some (b, q), r.drop ml)
  | none =>
      match pass2 vb r 1 with
      | some (b2, _ml2, q2) => (some (b2, q2), r.drop _ml2)
      | none => (none, r.drop 1)

/-- Fueled worker for the tokenizer's `while remaining_text:` loop
(source lines 179-219).  Fuel `buffer.length + 1` suffices (claim C5). -/
def parseLoopF (vb : List (List Char)) : Nat → List Char → List (List Char × Nat)
  | 0, _ => []
  | f+1, rem =>
      let r := pyStrip rem
      if r = [] then []
      else
        match parseIter vb r with
        | (some p, rest) => p :: parseLoopF vb f rest
        | (none, rest) => parseLoopF vb f rest

/-- The Order Tokenizer `parse_order_info` (source lines 169-226): empty
result when the message has no `'/'`; otherwise greedy left-to-right
consumption of the trimmed post-last-`'/'` segment.  `vb` is an enumeration
of the valid-buyer set in its (unspecified) iteration order. -/
def parse_order_info (msg : List Char) (vb : List (List Char)) :
    List (List Char × Nat) :=
  if '/' ∈ msg then
    let op := pyStrip (afterLastSlash msg)
    parseLoopF vb (op.length + 1) op
  else []

/-- One row of the order ledger (the dict built at source lines 270-276). -/
structure OrderRow where
  buyer : String
  productNumber : Nat
  productName : String
  price : Nat
  quantity : Nat
  deriving DecidableEq, Repr

/-- The per-record body of `process_excel`'s main loop (source lines
256-278): strip the message, skip if empty, extract the product, and only
when product number, product name and price are all truthy and the message
contains `'/'`, combine the product with every tokenized (buyer, quantity)
pair.  Python truthiness makes number 0, empty name and price 0 all skip. -/
def entriesOfLine (vb : List (List Char)) (rawMsg : List Char) : List OrderRow :=
  let msg := pyStrip rawMsg
  if msg = [] then []
  else
    match extract_product_info msg with
    | none => []
    | some (num, name, price) =>
        if num ≠ 0 ∧ name ≠ [] ∧ price ≠ 0 ∧ '/' ∈ msg then
          (parse_order_info msg vb).map
            (fun p => ⟨String.mk p.1, num, String.mk name, price, p.2⟩)
        else []

/-- Code-point lexicographic strict order on character lists — Python's
`<` on strings, the order pandas uses to sort the buyer column. -/
def strLtB : List Char → List Char → Bool
  | [], [] => false
  | [], _ :: _ => true
  | _ :: _, [] => false
  | a :: as, b :: bs => if a < b then true else if a = b then strLtB as bs else false

/-- The sort key order of `df_orders.sort_values(by=['구매자', '상품번호'])`
(source line 291): buyer ascending (Python string order, i.e. code-point
lexicographic), then product number ascending. -/
def ledgerLE (a b : OrderRow) : Prop :=
  strLtB a.buyer.data b.buyer.data = true ∨
    (a.buyer = b.buyer ∧ a.productNumber ≤ b.productNumber)

instance ledgerLE.decide (a b : OrderRow) : Decidable (ledgerLE a b) := by
  unfold ledgerLE; infer_instance

/-- Insertion step of the ledger sort. -/
def ledgerInsert (o : OrderRow) : List OrderRow → List OrderRow
  | [] => [o]
  | x :: xs => if ledgerLE o x then o :: x :: xs else x :: ledgerInsert o xs

/-- The final ledger sort (source line 291).  pandas uses an unstable
quicksort by default; we model the sort by insertion sort, which produces
a ledger sorted by the same keys (the property the spec states). -/
def sortLedger : List OrderRow → List OrderRow
  | [] => []
  | x :: xs => ledgerInsert x (sortLedger xs)

/-- The Pipeline Orchestrator `process_excel` (source lines 228-298) on a
list of `(sender, message)` records, assumed already in chronological
order (the source's optional sort on the `시간` column is the identity
then).  `none` models the two error outcomes (no admin messages, no
orders); the schema check concerns the pandas frame, not the record data.
-/
def process_excel (records : List (String × String))
    (manual : List (List Char)) : Option (List OrderRow) :=
  let fr := records.filter (fun r => decide (r.1 = "만물다잇쏘" ∨ r.1 = "다잇쏘"))
  if fr = [] then none
  else
    let vb := get_valid_buyers (fr.map (fun r => r.2.data)) manual
    let allOrders := (fr.map (fun r => r.2.data)).flatMap (fun m => entriesOfLine vb m)
    if allOrders = [] then none
    else some (sortLedger allOrders)

/-- The per-buyer aggregation of `main` (source lines 398-406):
one row per distinct buyer of the ledger, with the total quantity and the
total of price × quantity over that buyer's ledger rows. -/
def buyer_summary (ledger : List OrderRow) : List (String × Nat × Nat) :=
  ((ledger.map (fun o => o.buyer)).dedup).map (fun b =>
    (b,
     ((ledger.filter (fun o => decide (o.buyer = b))).map (fun o => o.quantity)).sum,
     ((ledger.filter (fun o => decide (o.buyer = b))).map
        (fun o => o.price * o.quantity)).sum))

/-! Helper lemmas about the Python-string primitives. -/

theorem dropWhile_noop {p : Char → Bool} {l : List Char}
    (h : ∀ c, l.head? = some c → p c = false) : l.dropWhile p = l := by
  cases l with
  | nil => rfl
  | cons a t =>
      have := h a rfl
      simp [List.dropWhile_cons, this]

theorem head?_dropWhile {p : Char → Bool} :
    ∀ (l : List Char) (c : Char), (l.dropWhile p).head? = some c → p c = false := by
  intro l
  induction l with
  | nil => simp
  | cons a t ih =>
      intro c h
      by_cases hp : p a
      · rw [List.dropWhile_cons, if_pos hp] at h
        exact ih c h
      · rw [List.dropWhile_cons, if_neg hp] at h
        simp only [List.head?_cons, Option.some.injEq] at h
        subst h
        exact Bool.eq_false_iff.mpr hp

theorem getLast?_of_suffix {l₁ l₂ : List Char} (h : l₁ <:+ l₂) (hne : l₁ ≠ []) :
    l₁.getLast? = l₂.getLast? := by
  obtain ⟨t, rfl⟩ := h
  exact (List.getLast?_append_of_ne_nil t hne).symm

theorem mem_pyStrip {x : Char} {s : List Char} (h : x ∈ pyStrip s) : x ∈ s := by
  unfold pyStrip at h
  rw [List.mem_reverse] at h
  have h2 := (List.dropWhile_suffix pySpace).sublist.mem h
  rw [List.mem_reverse] at h2
  exact (List.dropWhile_suffix pySpace).sublist.mem h2

theorem pyStrip_head? {s : List Char} :
    ∀ c, (pyStrip s).head? = some c → pySpace c = false := by
  intro c h
  unfold pyStrip at h
  rw [List.head?_reverse] at h
  rcases hY : ((s.dropWhile pySpace).reverse.dropWhile pySpace) with _ | ⟨a, t⟩
  · rw [hY] at h; simp at h
  · have hne : (s.dropWhile pySpace).reverse.dropWhile pySpace ≠ [] := by
      rw [hY]; simp
    have hsuf := List.dropWhile_suffix (l := (s.dropWhile pySpace).reverse) pySpace
    have hlast := getLast?_of_suffix hsuf hne
    rw [hlast] at h
    rw [← List.head?_reverse, List.reverse_reverse] at h
    exact head?_dropWhile s c h

theorem pyStrip_getLast? {s : List Char} :
    ∀ c, (pyStrip s).getLast? = some c → pySpace c = false := by
  intro c h
  unfold pyStrip at h
  rw [List.getLast?_reverse] at h
  exact head?_dropWhile _ c h

theorem pyStrip_noop {s : List Char}
    (h1 : ∀ c, s.head? = some c → pySpace c = false)
    (h2 : ∀ c, s.getLast? = some c → pySpace c = false) : pyStrip s = s := by
  unfold pyStrip
  rw [dropWhile_noop h1]
  have : ∀ c, s.reverse.head? = some c → pySpace c = false := by
    intro c hc
    rw [List.head?_reverse] at hc
    exact h2 c hc
  rw [dropWhile_noop this, List.reverse_reverse]

theorem pyStrip_idem (s : List Char) : pyStrip (pyStrip s) = pyStrip s :=
  pyStrip_noop pyStrip_head? pyStrip_getLast?

theorem pyStrip_no_trailing {s : List Char}
    (h2 : ∀ c, s.getLast? = some c → pySpace c = false) :
    pyStrip s = s.dropWhile pySpace := by
  unfold pyStrip
  rcases hA : s.dropWhile pySpace with _ | ⟨a, t⟩
  · simp
  · have hne : s.dropWhile pySpace ≠ [] := by rw [hA]; simp
    have : ∀ c, (s.dropWhile pySpace).reverse.head? = some c → pySpace c = false := by
      intro c hc
      rw [List.head?_reverse] at hc
      rw [getLast?_of_suffix (List.dropWhile_suffix pySpace) hne] at hc
      exact h2 c hc
    rw [← hA, dropWhile_noop this, List.reverse_reverse]

theorem mem_tails_of_suffix {t l₁ l₂ : List Char} (h1 : t ∈ l₁.tails)
    (h2 : l₁ <:+ l₂) : t ∈ l₂.tails := by
  rw [List.mem_tails] at h1 ⊢
  exact h1.trans h2

/-- `extract_product_info` strips its argument first, so stripping is
absorbed. -/
theorem extract_product_info_pyStrip (m : List Char) :
    extract_product_info (pyStrip m) = extract_product_info m := by
  unfold extract_product_info
  rw [pyStrip_idem]

/-- A line whose extracted product number is 0 (Python-falsy) contributes
no ledger rows, whatever the valid-buyer set is. -/
theorem entriesOfLine_of_zero_number (vb : List (List Char)) (raw : List Char)
    (nm : List Char) (pr : Nat)
    (h : extract_product_info (pyStrip raw) = some (0, nm, pr)) :
    entriesOfLine vb raw = [] := by
  unfold entriesOfLine
  rcases hmsg : pyStrip raw with _ | ⟨a, t⟩
  · simp
  · rw [hmsg] at h
    simp only [h]
    simp

/-- C10: a chat line whose leading digit run parses to product number 0,
such as `"0 상품명 5000원 / 철수"`, is extracted successfully as
`(0, "상품명", 5000)`, but the orchestrator's truthiness guard on the
product number (source line 266) keeps it out of the ledger: the line
contributes zero order rows for every valid-buyer set, with no error. -/
theorem c10_zero_product_number_skipped :
    extract_product_info "0 상품명 5000원 / 철수".data = some (0, "상품명".data, 5000) ∧
    ∀ vb : List (List Char), entriesOfLine vb "0 상품명 5000원 / 철수".data = [] := by
  constructor
  · decide
  · intro vb
    apply entriesOfLine_of_zero_number vb _ "상품명".data 5000
    rw [extract_product_info_pyStrip]
    decide

/-- C8: a chat line whose message lacks the `'/'` delimiter, or on which
the Product Extractor fails, contributes zero order rows, and removing it
from any batch position leaves the collected orders of the remaining
records unchanged — the line is silently skipped and processing continues
(the model is total, so no error is possible).  The concrete no-delimiter
announcement of the spec's scenario 3 is the witness. -/
theorem c8_bad_line_skipped (vb : List (List Char)) (msg : List Char)
    (pre post : List (List Char))
    (h : '/' ∉ msg ∨ extract_product_info msg = none) :
    entriesOfLine vb msg = [] ∧
      (pre ++ msg :: post).flatMap (entriesOfLine vb) =
        (pre ++ post).flatMap (entriesOfLine vb) := by
  have hnil : entriesOfLine vb msg = [] := by
    unfold entriesOfLine
    rcases hmsg : pyStrip msg with _ | ⟨a, t⟩
    · simp
    · rcases hx : extract_product_info (pyStrip msg) with _ | ⟨⟨num, nm, pr⟩⟩
      · rw [hmsg] at hx
        simp only [hx]
        simp
      · rcases h with h | h
        · have hsl : '/' ∉ pyStrip msg := fun hc => h (mem_pyStrip hc)
          rw [hmsg] at hx hsl
          simp only [hx]
          simp only [hsl]
          simp
        · rw [extract_product_info_pyStrip] at hx
          rw [h] at hx
          exact absurd hx (by simp)
  refine ⟨hnil, ?_⟩
  rw [List.flatMap_append, List.flatMap_append, List.flatMap_cons, hnil]
  simp

/-- C8 witness: the spec's sample scenario 3, the no-delimiter message
`"공지: 오늘 방송 종료"` in the middle of a batch. -/
theorem c8_bad_line_skipped_witness :
    entriesOfLine [] "공지: 오늘 방송 종료".data = [] ∧
      (["1 사과 500원/철수".data] ++ "공지: 오늘 방송 종료".data :: []).flatMap
          (entriesOfLine []) =
        (["1 사과 500원/철수".data] ++ []).flatMap (entriesOfLine []) :=
  c8_bad_line_skipped [] "공지: 오늘 방송 종료".data ["1 사과 500원/철수".data] []
    (Or.inl (by decide))

/-- The tokenizer loop on an empty buffer yields nothing, at any fuel. -/
theorem parseLoopF_nil (vb : List (List Char)) : ∀ f, parseLoopF vb f [] = []
  | 0 => rfl
  | f+1 => by simp [parseLoopF, pyStrip]

/-- First-iteration lemma for the tokenizer: when the first element of the
valid-buyer enumeration that is a literal prefix of the (already stripped)
segment `r` is the nonempty ID `m`, the first emitted pair is `m` with the
following digit run as quantity (default 1), and the loop continues past
the consumed characters. -/
theorem parse_head_step (vb : List (List Char)) (msg r m : List Char)
    (hslash : '/' ∈ msg) (hseg : pyStrip (afterLastSlash msg) = r)
    (hfind : vb.find? (fun b => b.isPrefixOf r) = some m) (hm : m ≠ []) :
    parse_order_info msg vb =
      (m, if (r.drop m.length).takeWhile isDig = [] then 1
          else parseNat ((r.drop m.length).takeWhile isDig)) ::
        parseLoopF vb r.length
          (r.drop (m.length + ((r.drop m.length).takeWhile isDig).length)) := by
  have hr : pyStrip r = r := by rw [← hseg]; exact pyStrip_idem _
  have hp : m.isPrefixOf r = true :=
    List.find?_some (p := fun b : List Char => b.isPrefixOf r) hfind
  have hmpre : m <+: r := List.isPrefixOf_iff_prefix.mp hp
  have hrne : r ≠ [] := by
    intro h0
    rw [h0] at hmpre
    exact hm (List.prefix_nil.mp hmpre)
  unfold parse_order_info
  rw [if_pos hslash, hseg]
  show parseLoopF vb (r.length + 1) r = _
  simp only [parseLoopF]
  rw [hr, if_neg hrne]
  unfold parseIter pass1
  rw [hfind]
  by_cases hcase : (r.drop m.length).takeWhile isDig = []
  · simp [hcase, if_neg hm]
  · simp [hcase, if_neg hm]

/-- C2 counterexample: the code checks the *whole* valid-buyer set by
`startswith` in its (unspecified) set-iteration order, not the manual IDs
first.  On the batch `["a/ user9"]` with manual ID `"user123"`, the
discovered set is exactly `{"user123", "user"}` with `"user"` heuristic
(not manual); under the iteration order that tries `"user"` first, the
buffer `"user1232"` — where the manual `"user123"` also matches at
position 0 — is tokenized as `("user", 1232)`, so the manual ID loses. -/
theorem c2_counterexample :
    (get_valid_buyers ["a/ user9".data] ["user123".data]).Perm
        ["user".data, "user123".data] ∧
    "user".data ∉ ["user123".data] ∧
    "user123".data.isPrefixOf (pyStrip (afterLastSlash "p/user1232".data)) = true ∧
    parse_order_info "p/user1232".data ["user".data, "user123".data] =
      [("user".data, 1232)] := by
  decide

/-- C2 amended: the pair emitted at a buffer position uses whichever valid
buyer ID comes first in the iteration order of the merged valid-buyer set
among those that are literal prefixes of the buffer; manual IDs win exactly
when they precede every competing heuristic name in that incidental order
(e.g. whenever a manual ID is the first prefix-matching element). -/
theorem c2_first_prefix_match_wins (vb : List (List Char)) (msg r m : List Char)
    (hslash : '/' ∈ msg) (hseg : pyStrip (afterLastSlash msg) = r)
    (hfind : vb.find? (fun b => b.isPrefixOf r) = some m) (hm : m ≠ []) :
    (parse_order_info msg vb).head? =
      some (m, if (r.drop m.length).takeWhile isDig = [] then 1
               else parseNat ((r.drop m.length).takeWhile isDig)) := by
  rw [parse_head_step vb msg r m hslash hseg hfind hm]
  rfl

/-- C2 amended witness: with the iteration order `["user123", "user"]`
(manual ID first) the manual ID does win on the same buffer. -/
theorem c2_first_prefix_match_wins_witness :
    (parse_order_info "p/user1232".data ["user123".data, "user".data]).head? =
      some ("user123".data, 2) := by
  have h := c2_first_prefix_match_wins ["user123".data, "user".data]
    "p/user1232".data "user1232".data "user123".data
    (by decide) (by decide) (by decide) (by decide)
  exact h.trans (by decide)

/-- C1 counterexample: the claim fails when another valid buyer is a prefix
of the token.  With the valid-buyer set `{"철", "철수"}` enumerated with
`"철"` first (a possible Python set order), the buffer `"철수2"` — which is
the token `BQ` for the valid buyer `B = "철수"` and `Q = 2 ≥ 1` — yields
`[("철", 1)]` rather than the single pair `("철수", 2)`. -/
theorem c1_counterexample :
    "철수".data ∈ ["철".data, "철수".data] ∧ 1 ≤ 2 ∧
    pyStrip (afterLastSlash "x/철수2".data) = "철수".data ++ "2".data ∧
    parseNat "2".data = 2 ∧
    parse_order_info "x/철수2".data ["철".data, "철수".data] ≠
      [("철수".data, 2)] := by
  decide

/-- C1 amended: for a valid buyer ID `B` and quantity `Q ≥ 1`, a buffer
whose post-`'/'` segment is the token `BQ` (B followed by the digits of Q)
yields exactly the single pair `(B, Q)`, and the segment `B` alone yields
exactly `(B, 1)` — *provided* no other member of the valid-buyer set is a
prefix of the respective segment (the tokenizer's first pass tries the
whole set by `startswith` in set-iteration order, so an earlier
prefix-matching member would win instead). -/
theorem c1_token_yields_pair (vb : List (List Char)) (B ds : List Char) (Q : Nat)
    (msg1 msg2 : List Char)
    (hB : B ∈ vb) (hBne : B ≠ [])
    (hds : ds ≠ []) (hdig : ∀ c ∈ ds, isDig c = true)
    (hQ : parseNat ds = Q) (hQpos : 1 ≤ Q)
    (huniq1 : ∀ b ∈ vb, b.isPrefixOf (B ++ ds) = true → b = B)
    (huniq2 : ∀ b ∈ vb, b.isPrefixOf B = true → b = B)
    (h1 : '/' ∈ msg1) (hseg1 : pyStrip (afterLastSlash msg1) = B ++ ds)
    (h2 : '/' ∈ msg2) (hseg2 : pyStrip (afterLastSlash msg2) = B) :
    parse_order_info msg1 vb = [(B, Q)] ∧ parse_order_info msg2 vb = [(B, 1)] := by
  have hfind1 : vb.find? (fun b => b.isPrefixOf (B ++ ds)) = some B := by
    rcases hf : vb.find? (fun b => b.isPrefixOf (B ++ ds)) with _ | b
    · exfalso
      have := List.find?_eq_none.mp hf B hB
      exact this (List.isPrefixOf_iff_prefix.mpr (List.prefix_append B ds))
    · have hpb : b.isPrefixOf (B ++ ds) = true :=
        List.find?_some (p := fun x : List Char => x.isPrefixOf (B ++ ds)) hf
      have hb := huniq1 b (List.mem_of_find?_eq_some hf) hpb
      subst hb
      exact hf
  have hfind2 : vb.find? (fun b => b.isPrefixOf B) = some B := by
    rcases hf : vb.find? (fun b => b.isPrefixOf B) with _ | b
    · exfalso
      have := List.find?_eq_none.mp hf B hB
      exact this (List.isPrefixOf_iff_prefix.mpr (List.prefix_refl B))
    · have hpb : b.isPrefixOf B = true :=
        List.find?_some (p := fun x : List Char => x.isPrefixOf B) hf
      have hb := huniq2 b (List.mem_of_find?_eq_some hf) hpb
      subst hb
      exact hf
  have hdr1 : ((B ++ ds).drop B.length).takeWhile isDig = ds := by
    rw [List.drop_left]
    exact List.takeWhile_eq_self_iff.mpr hdig
  have hdr2 : (B.drop B.length).takeWhile isDig = [] := by
    rw [List.drop_length]
    rfl
  constructor
  · rw [parse_head_step vb msg1 (B ++ ds) B h1 hseg1 hfind1 hBne]
    rw [hdr1, if_neg hds, hQ]
    have hrest : (B ++ ds).drop (B.length + ds.length) = [] := by
      rw [← List.length_append B ds]
      exact List.drop_length _
    rw [hrest, parseLoopF_nil]
  · rw [parse_head_step vb msg2 B B h2 hseg2 hfind2 hBne]
    rw [hdr2, if_pos rfl]
    have hrest : B.drop (B.length + ([] : List Char).length) = [] := by
      simp
    rw [hrest, parseLoopF_nil]

/-- C1 witness: valid buyers `{"철수"}`, `B = "철수"`, `Q = 2`, on the
messages `"1 사과 500원/철수2"` and `"a/철수"`. -/
theorem c1_token_yields_pair_witness :
    parse_order_info "1 사과 500원/철수2".data ["철수".data] = [("철수".data, 2)] ∧
    parse_order_info "a/철수".data ["철수".data] = [("철수".data, 1)] :=
  c1_token_yields_pair ["철수".data] "철수".data "2".data 2
    "1 사과 500원/철수2".data "a/철수".data
    (by decide) (by decide) (by decide) (by decide) (by decide) (by decide)
    (by decide) (by decide) (by decide) (by decide) (by decide) (by decide)

theorem pass1_shape {vb : List (List Char)} {r b : List Char} {ml q : Nat}
    (h : pass1 vb r = some (b, ml, q)) : b.length ≤ ml := by
  unfold pass1 at h
  rcases hf : vb.find? (fun x => x.isPrefixOf r) with _ | b0
  · rw [hf] at h; exact absurd h (by simp)
  · rw [hf] at h
    dsimp only at h
    by_cases hdr : (r.drop b0.length).takeWhile isDig = []
    · rw [if_pos hdr] at h
      obtain ⟨rfl, rfl, rfl⟩ : b0 = b ∧ b0.length = ml ∧ 1 = q := by
        simpa using h
      exact Nat.le_refl _
    · rw [if_neg hdr] at h
      obtain ⟨rfl, rfl, rfl⟩ : b0 = b ∧
          b0.length + ((r.drop b0.length).takeWhile isDig).length = ml ∧
          parseNat ((r.drop b0.length).takeWhile isDig) = q := by
        simpa using h
      exact Nat.le_add_right _ _

theorem pass2_shape {vb : List (List Char)} {r b2 : List Char} {q0 ml2 q2 : Nat}
    (h : pass2 vb r q0 = some (b2, ml2, q2)) : b2 ≠ [] ∧ 1 ≤ ml2 := by
  unfold pass2 at h
  dsimp only at h
  by_cases hL : r.takeWhile isNameChar = []
  · rw [if_pos hL] at h; exact absurd h (by simp)
  · rw [if_neg hL] at h
    by_cases hmem : r.takeWhile isNameChar ∈ vb
    · rw [if_pos hmem] at h
      have hLpos : 1 ≤ (r.takeWhile isNameChar).length :=
        Nat.succ_le_of_lt (List.length_pos.mpr hL)
      by_cases hD : ((r.drop (r.takeWhile isNameChar).length).takeWhile isDig) = []
      · rw [if_pos hD] at h
        obtain ⟨rfl, rfl, rfl⟩ : r.takeWhile isNameChar = b2 ∧
            (r.takeWhile isNameChar).length = ml2 ∧ q0 = q2 := by
          simpa using h
        exact ⟨hL, hLpos⟩
      · rw [if_neg hD] at h
        obtain ⟨rfl, rfl, rfl⟩ : r.takeWhile isNameChar = b2 ∧
            (r.takeWhile isNameChar).length +
              ((r.drop (r.takeWhile isNameChar).length).takeWhile isDig).length = ml2 ∧
            parseNat ((r.drop (r.takeWhile isNameChar).length).takeWhile isDig) = q2 := by
          simpa using h
        exact ⟨hL, Nat.le_trans hLpos (Nat.le_add_right _ _)⟩
    · rw [if_neg hmem] at h; exact absurd h (by simp)

/-- Every iteration of the tokenizer loop strictly shrinks a nonempty
buffer: a truthy match consumes at least the buyer ID, and the no-match
case drops one character. -/
theorem parseIter_progress (vb : List (List Char)) (r : List Char) (hr : r ≠ []) :
    (parseIter vb r).2.length < r.length := by
  have hrpos : 0 < r.length := List.length_pos.mpr hr
  unfold parseIter
  rcases h1 : pass1 vb r with _ | ⟨b, ml, q⟩ <;> dsimp only
  · rcases h2 : pass2 vb r 1 with _ | ⟨⟨b2, ml2, q2⟩⟩ <;> dsimp only
    · simpa using Nat.sub_lt hrpos Nat.one_pos
    · obtain ⟨_, hml2⟩ := pass2_shape h2
      simpa using Nat.sub_lt hrpos hml2
  · by_cases hb : b = []
    · rw [if_pos hb]
      rcases h2 : pass2 vb r q with _ | ⟨⟨b2, ml2, q2⟩⟩ <;> dsimp only
      · simpa using Nat.sub_lt hrpos Nat.one_pos
      · obtain ⟨_, hml2⟩ := pass2_shape h2
        simpa using Nat.sub_lt hrpos hml2
    · rw [if_neg hb]
      have hbml : b.length ≤ ml := pass1_shape h1
      have hml : 1 ≤ ml :=
        Nat.le_trans (Nat.succ_le_of_lt (List.length_pos.mpr hb)) hbml
      simpa using Nat.sub_lt hrpos hml

theorem pyStrip_length_le (s : List Char) : (pyStrip s).length ≤ s.length := by
  unfold pyStrip
  rw [List.length_reverse]
  refine Nat.le_trans (List.dropWhile_suffix pySpace).sublist.length_le ?_
  rw [List.length_reverse]
  exact (List.dropWhile_suffix pySpace).sublist.length_le

/-- C5: the Order Tokenizer terminates on every finite buffer: each
iteration strictly decreases the length of the remaining buffer (first
conjunct), hence the fueled loop is stable at any fuel exceeding the
buffer length (second conjunct) — the loop never runs forever, and the
`length + 1` fuel used by `parse_order_info` computes the loop's fixed
result. -/
theorem c5_tokenizer_terminates (vb : List (List Char)) :
    (∀ r : List Char, r ≠ [] → (parseIter vb r).2.length < r.length) ∧
    ∀ (buf : List Char) (f₁ f₂ : Nat), buf.length < f₁ → buf.length < f₂ →
      parseLoopF vb f₁ buf = parseLoopF vb f₂ buf := by
  refine ⟨parseIter_progress vb, ?_⟩
  suffices h : ∀ (f₁ f₂ : Nat) (buf : List Char), buf.length < f₁ → buf.length < f₂ →
      parseLoopF vb f₁ buf = parseLoopF vb f₂ buf by
    intro buf f₁ f₂ h₁ h₂
    exact h f₁ f₂ buf h₁ h₂
  intro f₁
  induction f₁ with
  | zero => intro f₂ buf h₁; exact absurd h₁ (by omega)
  | succ f ih =>
      intro f₂ buf h₁ h₂
      rcases f₂ with _ | g
      · exact absurd h₂ (by omega)
      · simp only [parseLoopF]
        by_cases hr : pyStrip buf = []
        · rw [hr]; simp
        · rw [if_neg hr, if_neg hr]
          have hprog := parseIter_progress vb (pyStrip buf) hr
          have hle := pyStrip_length_le buf
          rcases hpi : parseIter vb (pyStrip buf) with ⟨op, rest⟩
          rw [hpi] at hprog
          have hrest₁ : rest.length < f := by
            simp only at hprog; omega
          have hrest₂ : rest.length < g := by
            simp only at hprog; omega
          rcases op with _ | p <;> dsimp only
          · exact ih g rest hrest₁ hrest₂
          · rw [ih g rest hrest₁ hrest₂]

/-- C5 witness: on the buffer `"철수 영희2"` (length 6) with valid buyers
`{"철수", "영희"}`, one iteration shrinks the buffer and fuels 7 and 20
give the same result. -/
theorem c5_tokenizer_terminates_witness :
    ("철수 영희2".data ≠ [] ∧
      (parseIter ["철수".data, "영희".data] "철수 영희2".data).2.length <
        "철수 영희2".data.length) ∧
    parseLoopF ["철수".data, "영희".data] 7 "철수 영희2".data =
      parseLoopF ["철수".data, "영희".data] 20 "철수 영희2".data :=
  ⟨⟨by decide, (c5_tokenizer_terminates ["철수".data, "영희".data]).1 _ (by decide)⟩,
    (c5_tokenizer_terminates ["철수".data, "영희".data]).2 _ 7 20 (by decide) (by decide)⟩

/-- C3 counterexample: an explicit numeric suffix `0` is taken verbatim as
the quantity.  With valid buyers `{"철수"}`, the message `"x/철수0"`
produces the pair `("철수", 0)`, whose quantity is not `≥ 1`. -/
theorem c3_counterexample :
    parse_order_info "x/철수0".data ["철수".data] = [("철수".data, 0)] ∧
    ¬ (1 ≤ 0) := by
  decide

/-- Every digit run starting anywhere in `s` has positive numeric value
(equivalently, no maximal digit run in `s` is all zeros).  This is the
proviso under which the tokenizer's quantities are all positive. -/
def digitRunsPos (s : List Char) : Prop :=
  ∀ t ∈ s.tails, t.takeWhile isDig ≠ [] → 1 ≤ parseNat (t.takeWhile isDig)

instance digitRunsPos.inst (s : List Char) : Decidable (digitRunsPos s) := by
  unfold digitRunsPos
  exact List.decidableBAll _ _

theorem digitRunsPos_suffix {l₁ l₂ : List Char} (h : l₁ <:+ l₂)
    (H : digitRunsPos l₂) : digitRunsPos l₁ :=
  fun t ht => H t (mem_tails_of_suffix ht h)

theorem pass1_quantity {vb : List (List Char)} {r b : List Char} {ml q : Nat}
    (h : pass1 vb r = some (b, ml, q)) (H : digitRunsPos r) : 1 ≤ q := by
  unfold pass1 at h
  rcases hf : vb.find? (fun x => x.isPrefixOf r) with _ | b0
  · rw [hf] at h; exact absurd h (by simp)
  · rw [hf] at h
    dsimp only at h
    by_cases hdr : (r.drop b0.length).takeWhile isDig = []
    · rw [if_pos hdr] at h
      obtain ⟨-, -, rfl⟩ : b0 = b ∧ b0.length = ml ∧ 1 = q := by simpa using h
      exact Nat.le_refl _
    · rw [if_neg hdr] at h
      obtain ⟨-, -, rfl⟩ : b0 = b ∧ _ = ml ∧
          parseNat ((r.drop b0.length).takeWhile isDig) = q := by simpa using h
      exact H _ ((List.mem_tails _ _).mpr (List.drop_suffix _ _)) hdr

theorem pass2_quantity {vb : List (List Char)} {r b2 : List Char} {q0 ml2 q2 : Nat}
    (h : pass2 vb r q0 = some (b2, ml2, q2)) (H : digitRunsPos r) (hq0 : 1 ≤ q0) :
    1 ≤ q2 := by
  unfold pass2 at h
  dsimp only at h
  by_cases hL : r.takeWhile isNameChar = []
  · rw [if_pos hL] at h; exact absurd h (by simp)
  · rw [if_neg hL] at h
    by_cases hmem : r.takeWhile isNameChar ∈ vb
    · rw [if_pos hmem] at h
      by_cases hD : ((r.drop (r.takeWhile isNameChar).length).takeWhile isDig) = []
      · rw [if_pos hD] at h
        obtain ⟨-, -, rfl⟩ : _ ∧ _ ∧ q0 = q2 := by simpa using h
        exact hq0
      · rw [if_neg hD] at h
        obtain ⟨-, -, rfl⟩ : _ ∧ _ ∧
            parseNat ((r.drop (r.takeWhile isNameChar).length).takeWhile isDig) = q2 := by
          simpa using h
        exact H _ ((List.mem_tails _ _).mpr (List.drop_suffix _ _)) hD
    · rw [if_neg hmem] at h; exact absurd h (by simp)

theorem parseIter_quantity {vb : List (List Char)} {r b : List Char} {q : Nat}
    {rest : List Char} (h : parseIter vb r = (some (b, q), rest))
    (H : digitRunsPos r) : 1 ≤ q := by
  unfold parseIter at h
  rcases h1 : pass1 vb r with _ | ⟨b0, ml0, q0⟩ <;> rw [h1] at h <;> dsimp only at h
  · rcases h2 : pass2 vb r 1 with _ | ⟨⟨b2, ml2, q2⟩⟩ <;> rw [h2] at h <;>
      dsimp only at h
    · exact absurd h (by simp)
    · obtain ⟨⟨-, rfl⟩, -⟩ : (b2 = b ∧ q2 = q) ∧ r.drop ml2 = rest := by simpa using h
      exact pass2_quantity h2 H (Nat.le_refl 1)
  · have hq0 : 1 ≤ q0 := pass1_quantity h1 H
    by_cases hb0 : b0 = []
    · rw [if_pos hb0] at h
      rcases h2 : pass2 vb r q0 with _ | ⟨⟨b2, ml2, q2⟩⟩ <;> rw [h2] at h <;>
        dsimp only at h
      · exact absurd h (by simp)
      · obtain ⟨⟨-, rfl⟩, -⟩ : (b2 = b ∧ q2 = q) ∧ r.drop ml2 = rest := by simpa using h
        exact pass2_quantity h2 H hq0
    · rw [if_neg hb0] at h
      obtain ⟨⟨-, rfl⟩, -⟩ : (b0 = b ∧ q0 = q) ∧ r.drop ml0 = rest := by simpa using h
      exact hq0

/-- The new buffer of an iteration is a suffix of the old one. -/
theorem parseIter_rest_suffix (vb : List (List Char)) (r : List Char) :
    (parseIter vb r).2 <:+ r := by
  unfold parseIter
  rcases h1 : pass1 vb r with _ | ⟨b, ml, q⟩ <;> dsimp only
  · rcases h2 : pass2 vb r 1 with _ | ⟨⟨b2, ml2, q2⟩⟩ <;> dsimp only <;>
      exact List.drop_suffix _ _
  · by_cases hb : b = []
    · rw [if_pos hb]
      rcases h2 : pass2 vb r q with _ | ⟨⟨b2, ml2, q2⟩⟩ <;> dsimp only <;>
        exact List.drop_suffix _ _
    · rw [if_neg hb]
      exact List.drop_suffix _ _

theorem parseLoopF_quantity (vb : List (List Char)) :
    ∀ (f : Nat) (rem : List Char),
      (∀ c, rem.getLast? = some c → pySpace c = false) → digitRunsPos rem →
      ∀ p ∈ parseLoopF vb f rem, 1 ≤ p.2 := by
  intro f
  induction f with
  | zero => intro rem _ _ p hp; simp [parseLoopF] at hp
  | succ f ih =>
      intro rem hlast H p hp
      simp only [parseLoopF] at hp
      by_cases hr : pyStrip rem = []
      · rw [hr] at hp; simp at hp
      · rw [if_neg hr] at hp
        have hstrip : pyStrip rem = rem.dropWhile pySpace := pyStrip_no_trailing hlast
        have hsufr : pyStrip rem <:+ rem := by
          rw [hstrip]; exact List.dropWhile_suffix pySpace
        have Hr : digitRunsPos (pyStrip rem) := digitRunsPos_suffix hsufr H
        have hlastr : ∀ c, (pyStrip rem).getLast? = some c → pySpace c = false :=
          pyStrip_getLast?
        generalize hpi : parseIter vb (pyStrip rem) = pr at hp
        obtain ⟨op, rest⟩ := pr
        have hsufrest : rest <:+ pyStrip rem := by
          have h0 := parseIter_rest_suffix vb (pyStrip rem)
          rw [hpi] at h0
          exact h0
        have Hrest : digitRunsPos rest := digitRunsPos_suffix hsufrest Hr
        have hlastrest : ∀ c, rest.getLast? = some c → pySpace c = false := by
          intro c hc
          have hne : rest ≠ [] := by
            intro h0; rw [h0] at hc; simp at hc
          rw [getLast?_of_suffix hsufrest hne] at hc
          exact hlastr c hc
        rcases op with _ | p0
        · exact ih rest hlastrest Hrest p hp
        · dsimp only at hp
          rw [List.mem_cons] at hp
          rcases hp with rfl | hp
          · rcases p with ⟨pb, pq⟩
            exact parseIter_quantity hpi Hr
          · exact ih rest hlastrest Hrest p hp

/-- C3 amended: every (buyer, quantity) pair produced by the Order
Tokenizer has quantity ≥ 1 *provided* every digit run starting at any
position of the order segment has positive value (the Python `int` of an
explicit suffix is used verbatim, so a zero-valued suffix — see the
counterexample — produces quantity 0; and because the valid-buyer set is
arbitrary here, an ID ending in digits can make a quantity start in the
middle of a digit run, so every run suffix must be positive).  Under this
proviso each quantity is either a positive suffix value or the default 1,
and consequently the ledger rows built from these pairs have
quantity ≥ 1. -/
theorem c3_quantities_positive (msg : List Char) (vb : List (List Char))
    (H : digitRunsPos (pyStrip (afterLastSlash msg))) :
    ∀ p ∈ parse_order_info msg vb, 1 ≤ p.2 := by
  unfold parse_order_info
  by_cases hs : '/' ∈ msg
  · rw [if_pos hs]
    exact parseLoopF_quantity vb _ _ pyStrip_getLast? H
  · rw [if_neg hs]
    intro p hp
    simp at hp

/-- C3 amended witness: every digit-run suffix of the segment
`"철수3 영희12"` has positive value, and both emitted quantities are ≥ 1. -/
theorem c3_quantities_positive_witness :
    digitRunsPos (pyStrip (afterLastSlash "x/철수3 영희12".data)) ∧
    ∀ p ∈ parse_order_info "x/철수3 영희12".data ["철수".data, "영희".data], 1 ≤ p.2 :=
  ⟨by decide, c3_quantities_positive _ ["철수".data, "영희".data] (by decide)⟩

/-- C9: the Buyer Discoverer is permutation-invariant: for any reordering
of the input records, `get_valid_buyers` recognises exactly the same set
of buyer identifiers (the result set is built from membership over the
whole batch, so batch order is irrelevant). -/
theorem c9_buyer_discoverer_perm_invariant (msgs msgs' : List (List Char))
    (manual : List (List Char)) (h : msgs.Perm msgs') (b : List Char) :
    b ∈ get_valid_buyers msgs manual ↔ b ∈ get_valid_buyers msgs' manual := by
  unfold get_valid_buyers
  simp only [List.mem_dedup, List.mem_append, List.mem_flatMap]
  refine or_congr Iff.rfl ?_
  constructor
  · rintro ⟨m, hm, hbm⟩
    exact ⟨m, h.mem_iff.mp hm, hbm⟩
  · rintro ⟨m, hm, hbm⟩
    exact ⟨m, h.mem_iff.mpr hm, hbm⟩

/-- C9 witness: swapping two records leaves the discovered set unchanged
(checked at the heuristic name `"영희"`). -/
theorem c9_buyer_discoverer_perm_invariant_witness :
    (["1 사과 500원/철수".data, "2 배 1000원/영희2 kim7".data].Perm
      ["2 배 1000원/영희2 kim7".data, "1 사과 500원/철수".data]) ∧
    ("영희".data ∈ get_valid_buyers
        ["1 사과 500원/철수".data, "2 배 1000원/영희2 kim7".data] ["minsu".data] ↔
      "영희".data ∈ get_valid_buyers
        ["2 배 1000원/영희2 kim7".data, "1 사과 500원/철수".data] ["minsu".data]) :=
  ⟨by decide, c9_buyer_discoverer_perm_invariant _ _ ["minsu".data] (by decide) _⟩

theorem filter_eq_singleton_of_nodup {α : Type} [DecidableEq α] :
    ∀ {l : List α}, l.Nodup → ∀ {b : α}, b ∈ l →
      l.filter (fun x => decide (x = b)) = [b] := by
  intro l
  induction l with
  | nil => intro _ b hb; exact absurd hb (by simp)
  | cons a t ih =>
      intro hn b hb
      rw [List.nodup_cons] at hn
      by_cases hab : a = b
      · subst hab
        rw [List.filter_cons]
        simp only [decide_eq_true_eq, if_pos rfl]
        have ht : t.filter (fun x => decide (x = a)) = [] := by
          rw [List.filter_eq_nil_iff]
          intro x hx
          simp only [decide_eq_true_eq]
          intro he
          exact hn.1 (he ▸ hx)
        rw [ht]
        simp
      · rw [List.filter_cons]
        have hd : (decide (a = b)) = false := by simpa using hab
        rw [hd, if_neg Bool.false_ne_true]
        have hbt : b ∈ t := by
          rcases List.mem_cons.mp hb with h0 | h0
          · exact absurd h0.symm hab
          · exact h0
        exact ih hn.2 hbt

/-- C7: the buyer-summary table has exactly one row per distinct buyer of
the ledger, and that row's totals are the sum of `quantity`, respectively
of `price * quantity`, over exactly that buyer's ledger rows. -/
theorem c7_buyer_summary_totals (ledger : List OrderRow) (b : String)
    (hb : b ∈ ledger.map (fun o => o.buyer)) :
    (buyer_summary ledger).filter (fun row => decide (row.1 = b)) =
      [(b,
        ((ledger.filter (fun o => decide (o.buyer = b))).map (fun o => o.quantity)).sum,
        ((ledger.filter (fun o => decide (o.buyer = b))).map
          (fun o => o.price * o.quantity)).sum)] := by
  unfold buyer_summary
  rw [List.filter_map]
  have hL : ((ledger.map (fun o => o.buyer)).dedup).filter
      (fun x => decide (x = b)) = [b] :=
    filter_eq_singleton_of_nodup (List.nodup_dedup _) (List.mem_dedup.mpr hb)
  show (((ledger.map (fun o => o.buyer)).dedup).filter (fun x => decide (x = b))).map
      _ = _
  rw [hL]
  rfl

/-- C7 witness: a three-row ledger with two buyers; the summary row for
`"철수"` is unique with totals 5 and 4000. -/
theorem c7_buyer_summary_totals_witness :
    (buyer_summary [⟨"철수", 1, "사과", 500, 2⟩, ⟨"영희", 1, "사과", 500, 1⟩,
        ⟨"철수", 2, "배", 1000, 3⟩]).filter (fun row => decide (row.1 = "철수")) =
      [("철수", 5, 4000)] :=
  (c7_buyer_summary_totals
    [⟨"철수", 1, "사과", 500, 2⟩, ⟨"영희", 1, "사과", 500, 1⟩,
      ⟨"철수", 2, "배", 1000, 3⟩] "철수" (by decide)).trans (by decide)

theorem strLtB_total : ∀ x y : List Char,
    strLtB x y = true ∨ strLtB y x = true ∨ x = y := by
  intro x
  induction x with
  | nil =>
      intro y
      cases y with
      | nil => right; right; rfl
      | cons b bs => left; rfl
  | cons a as ih =>
      intro y
      cases y with
      | nil => right; left; rfl
      | cons b bs =>
          rcases lt_trichotomy a b with h | h | h
          · left; simp [strLtB, h]
          · subst h
            rcases ih bs with h0 | h0 | h0
            · left; simp [strLtB, h0]
            · right; left; simp [strLtB, h0]
            · right; right; rw [h0]
          · right; left; simp [strLtB, h]

theorem strLtB_trans : ∀ {x y z : List Char},
    strLtB x y = true → strLtB y z = true → strLtB x z = true := by
  intro x
  induction x with
  | nil =>
      intro y z hxy hyz
      cases y with
      | nil => simp [strLtB] at hxy
      | cons b bs =>
          cases z with
          | nil => simp [strLtB] at hyz
          | cons c cs => rfl
  | cons a as ih =>
      intro y z hxy hyz
      cases y with
      | nil => simp [strLtB] at hxy
      | cons b bs =>
          cases z with
          | nil => simp [strLtB] at hyz
          | cons c cs =>
              by_cases hab : a < b
              · by_cases hbc : b < c
                · simp [strLtB, lt_trans hab hbc]
                · by_cases hbc2 : b = c
                  · subst hbc2; simp [strLtB, hab]
                  · simp [strLtB, hbc, hbc2] at hyz
              · by_cases hab2 : a = b
                · subst hab2
                  by_cases hbc : a < c
                  · simp [strLtB, hbc]
                  · by_cases hbc2 : a = c
                    · subst hbc2
                      simp only [strLtB, lt_self_iff_false, if_false, if_pos rfl,
                        reduceIte] at hxy hyz ⊢
                      exact ih hxy hyz
                    · simp [strLtB, hbc, hbc2] at hyz
                · simp [strLtB, hab, hab2] at hxy

theorem ledgerLE_total (a b : OrderRow) : ledgerLE a b ∨ ledgerLE b a := by
  unfold ledgerLE
  rcases strLtB_total a.buyer.data b.buyer.data with h | h | h
  · exact Or.inl (Or.inl h)
  · exact Or.inr (Or.inl h)
  · have he : a.buyer = b.buyer := congrArg String.mk h
    rcases Nat.le_total a.productNumber b.productNumber with hn | hn
    · exact Or.inl (Or.inr ⟨he, hn⟩)
    · exact Or.inr (Or.inr ⟨he.symm, hn⟩)

theorem ledgerLE_trans {a b c : OrderRow} (h1 : ledgerLE a b) (h2 : ledgerLE b c) :
    ledgerLE a c := by
  unfold ledgerLE at h1 h2 ⊢
  rcases h1 with h1 | ⟨h1e, h1n⟩
  · rcases h2 with h2 | ⟨h2e, _⟩
    · exact Or.inl (strLtB_trans h1 h2)
    · exact Or.inl (h2e ▸ h1)
  · rcases h2 with h2 | ⟨h2e, h2n⟩
    · exact Or.inl (h1e ▸ h2)
    · exact Or.inr ⟨h1e.trans h2e, Nat.le_trans h1n h2n⟩

theorem mem_ledgerInsert {x o : OrderRow} :
    ∀ {l : List OrderRow}, x ∈ ledgerInsert o l → x = o ∨ x ∈ l := by
  intro l
  induction l with
  | nil => intro hx; simp [ledgerInsert] at hx; exact Or.inl hx
  | cons y ys ih =>
      intro hx
      unfold ledgerInsert at hx
      by_cases h : ledgerLE o y
      · rw [if_pos h] at hx
        rcases List.mem_cons.mp hx with rfl | hx
        · exact Or.inl rfl
        · exact Or.inr hx
      · rw [if_neg h] at hx
        rcases List.mem_cons.mp hx with rfl | hx
        · exact Or.inr (List.mem_cons_self _ _)
        · rcases ih hx with h0 | h0
          · exact Or.inl h0
          · exact Or.inr (List.mem_cons_of_mem _ h0)

theorem pairwise_ledgerInsert (o : OrderRow) :
    ∀ {l : List OrderRow}, l.Pairwise ledgerLE →
      (ledgerInsert o l).Pairwise ledgerLE := by
  intro l
  induction l with
  | nil => intro _; simp [ledgerInsert]
  | cons x xs ih =>
      intro hp
      rw [List.pairwise_cons] at hp
      obtain ⟨hx, hxs⟩ := hp
      unfold ledgerInsert
      by_cases h : ledgerLE o x
      · rw [if_pos h]
        rw [List.pairwise_cons]
        refine ⟨?_, ?_⟩
        · intro y hy
          rcases List.mem_cons.mp hy with rfl | hy
          · exact h
          · exact ledgerLE_trans h (hx y hy)
        · rw [List.pairwise_cons]
          exact ⟨hx, hxs⟩
      · rw [if_neg h]
        rw [List.pairwise_cons]
        refine ⟨?_, ih hxs⟩
        intro y hy
        rcases mem_ledgerInsert hy with rfl | hy
        · rcases ledgerLE_total x y with h0 | h0
          · exact h0
          · exact absurd h0 h
        · exact hx y hy

theorem sortLedger_pairwise : ∀ l : List OrderRow,
    (sortLedger l).Pairwise ledgerLE := by
  intro l
  induction l with
  | nil => simp [sortLedger]
  | cons x xs ih => exact pairwise_ledgerInsert x ih

/-- C6: every ledger returned by the Pipeline Orchestrator is sorted by
(buyer ascending, productNumber ascending): the sequence of
(buyer, productNumber) keys is non-decreasing in lexicographic order. -/
theorem c6_ledger_sorted (records : List (String × String))
    (manual : List (List Char)) (ledger : List OrderRow)
    (h : process_excel records manual = some ledger) :
    ledger.Pairwise (fun a b =>
      strLtB a.buyer.data b.buyer.data = true ∨
        (a.buyer = b.buyer ∧ a.productNumber ≤ b.productNumber)) := by
  unfold process_excel at h
  by_cases h1 : records.filter
      (fun r => decide (r.1 = "만물다잇쏘" ∨ r.1 = "다잇쏘")) = []
  · rw [if_pos h1] at h
    exact absurd h (by simp)
  · rw [if_neg h1] at h
    dsimp only at h
    by_cases h2 : ((records.filter
        (fun r => decide (r.1 = "만물다잇쏘" ∨ r.1 = "다잇쏘"))).map
          (fun r => r.2.data)).flatMap
        (fun m => entriesOfLine (get_valid_buyers
          ((records.filter (fun r => decide (r.1 = "만물다잇쏘" ∨ r.1 = "다잇쏘"))).map
            (fun r => r.2.data)) manual) m) = []
    · rw [if_pos h2] at h
      exact absurd h (by simp)
    · rw [if_neg h2] at h
      have hinj := Option.some.inj h
      rw [← hinj]
      exact sortLedger_pairwise _

/-- C6 witness: one admin record producing a two-buyer ledger, sorted. -/
theorem c6_ledger_sorted_witness :
    process_excel [("다잇쏘", "1 사과 500원 / 철수 영희2")] [] =
      some [⟨"영희", 1, "사과", 500, 2⟩, ⟨"철수", 1, "사과", 500, 1⟩] ∧
    ([⟨"영희", 1, "사과", 500, 2⟩,
      (⟨"철수", 1, "사과", 500, 1⟩ : OrderRow)]).Pairwise (fun a b =>
        strLtB a.buyer.data b.buyer.data = true ∨
          (a.buyer = b.buyer ∧ a.productNumber ≤ b.productNumber)) :=
  ⟨by decide, c6_ledger_sorted [("다잇쏘", "1 사과 500원 / 철수 영희2")] [] _ (by decide)⟩

/-- C4 counterexample: the Name Cleaner is not idempotent.  On
`"ab1cd2"` the buyer-tag pass removes only `"cd2"` (the match must be
followed by whitespace or end of string, and `"ab1"` is followed by
`'c'`), leaving `"ab1"` — which a second application erases entirely. -/
theorem c4_counterexample :
    clean_product_name (clean_product_name "ab1cd2".data) ≠
      clean_product_name "ab1cd2".data := by
  decide

theorem tails_self (s : List Char) : s ∈ s.tails :=
  (List.mem_tails _ _).mpr (List.suffix_refl s)

theorem tails_of_tail {t : List Char} {c : Char} {cs : List Char}
    (h : t ∈ cs.tails) : t ∈ (c :: cs).tails :=
  mem_tails_of_suffix h (List.suffix_cons c cs)

theorem removeF_noop (p : List Char) :
    ∀ (f : Nat) (s : List Char), (∀ t ∈ s.tails, p.isPrefixOf t = false) →
      removeF p f s = s := by
  intro f
  induction f with
  | zero =>
      intro s _
      cases s <;> rfl
  | succ f ih =>
      intro s H
      cases s with
      | nil => rfl
      | cons c cs =>
          have hpre : p.isPrefixOf (c :: cs) = false := H _ (tails_self _)
          show (if p ≠ [] ∧ p.isPrefixOf (c :: cs) then _ else
            c :: removeF p f cs) = c :: cs
          rw [if_neg (by rw [hpre]; simp)]
          rw [ih cs (fun t ht => H t (tails_of_tail ht))]

theorem foldl_removeAllSub_noop {ps : List (List Char)} {s : List Char}
    (H : ∀ p ∈ ps, ∀ t ∈ s.tails, p.isPrefixOf t = false) :
    ps.foldl (fun acc p => removeAllSub p acc) s = s := by
  induction ps with
  | nil => rfl
  | cons p ps ih =>
      show ps.foldl _ (removeAllSub p s) = s
      rw [removeAllSub, removeF_noop p _ s (H p (List.mem_cons_self p ps))]
      exact ih (fun p0 hp0 => H p0 (List.mem_cons_of_mem p hp0))

theorem subTagF_noop :
    ∀ (f : Nat) (s : List Char), (∀ t ∈ s.tails, tagSplit t = none) →
      subTagF f s = s := by
  intro f
  induction f with
  | zero => intro s _; cases s <;> rfl
  | succ f ih =>
      intro s H
      cases s with
      | nil => rfl
      | cons c cs =>
          show (match tagSplit (c :: cs) with
                | some n => subTagF f (cs.drop n)
                | none => c :: subTagF f cs) = c :: cs
          rw [H _ (tails_self _)]
          rw [ih cs (fun t ht => H t (tails_of_tail ht))]

theorem mem_removeF {p : List Char} {x : Char} :
    ∀ {f : Nat} {s : List Char}, x ∈ removeF p f s → x ∈ s := by
  intro f
  induction f with
  | zero =>
      intro s hx
      cases s with
      | nil => simp [removeF] at hx
      | cons c cs => exact hx
  | succ f ih =>
      intro s hx
      cases s with
      | nil => simp [removeF] at hx
      | cons c cs =>
          by_cases hc : p ≠ [] ∧ p.isPrefixOf (c :: cs)
          · rw [show removeF p (f+1) (c :: cs) =
                removeF p f ((c :: cs).drop p.length) from by
                  show (if p ≠ [] ∧ p.isPrefixOf (c :: cs) then _ else _) = _
                  rw [if_pos hc]] at hx
            exact (List.drop_subset _ _) (ih hx)
          · rw [show removeF p (f+1) (c :: cs) = c :: removeF p f cs from by
                  show (if p ≠ [] ∧ p.isPrefixOf (c :: cs) then _ else _) = _
                  rw [if_neg hc]] at hx
            rcases List.mem_cons.mp hx with rfl | hx
            · exact List.mem_cons_self _ _
            · exact List.mem_cons_of_mem _ (ih hx)

theorem mem_foldl_removeAllSub {ps : List (List Char)} {x : Char} :
    ∀ {s : List Char}, x ∈ ps.foldl (fun acc p => removeAllSub p acc) s → x ∈ s := by
  induction ps with
  | nil => intro s hx; exact hx
  | cons p ps ih =>
      intro s hx
      have := ih hx
      exact mem_removeF this

theorem mem_subTagF {x : Char} :
    ∀ {f : Nat} {s : List Char}, x ∈ subTagF f s → x ∈ s := by
  intro f
  induction f with
  | zero =>
      intro s hx
      cases s with
      | nil => simp [subTagF] at hx
      | cons c cs => exact hx
  | succ f ih =>
      intro s hx
      cases s with
      | nil => simp [subTagF] at hx
      | cons c cs =>
          rcases ht : tagSplit (c :: cs) with _ | n
          · rw [show subTagF (f+1) (c :: cs) = c :: subTagF f cs from by
                  show (match tagSplit (c :: cs) with
                        | some n => subTagF f (cs.drop n)
                        | none => c :: subTagF f cs) = _
                  rw [ht]] at hx
            rcases List.mem_cons.mp hx with rfl | hx
            · exact List.mem_cons_self _ _
            · exact List.mem_cons_of_mem _ (ih hx)
          · rw [show subTagF (f+1) (c :: cs) = subTagF f (cs.drop n) from by
                  show (match tagSplit (c :: cs) with
                        | some n => subTagF f (cs.drop n)
                        | none => c :: subTagF f cs) = _
                  rw [ht]] at hx
            exact List.mem_cons_of_mem _ ((List.drop_subset _ _) (ih hx))

theorem mem_wordsF {x : Char} :
    ∀ {f : Nat} {s : List Char} {w : List Char}, w ∈ wordsF f s → x ∈ w → x ∈ s := by
  intro f
  induction f with
  | zero =>
      intro s w hw hx
      cases s with
      | nil => simp [wordsF] at hw
      | cons c cs =>
          have : w = c :: cs := by simpa [wordsF] using hw
          exact this ▸ hx
  | succ f ih =>
      intro s w hw hx
      cases s with
      | nil => simp [wordsF] at hw
      | cons c cs =>
          by_cases hsp : pySpace c
          · rw [show wordsF (f+1) (c :: cs) = wordsF f cs from by
                  show (if pySpace c then _ else _) = _
                  rw [if_pos hsp]] at hw
            exact List.mem_cons_of_mem _ (ih hw hx)
          · rw [show wordsF (f+1) (c :: cs) =
                (c :: cs.takeWhile (fun y => !pySpace y)) ::
                  wordsF f (cs.dropWhile (fun y => !pySpace y)) from by
                  show (if pySpace c then _ else _) = _
                  rw [if_neg hsp]] at hw
            rcases List.mem_cons.mp hw with rfl | hw
            · rcases List.mem_cons.mp hx with rfl | hx
              · exact List.mem_cons_self _ _
              · exact List.mem_cons_of_mem _
                  ((List.takeWhile_prefix _).sublist.mem hx)
            · exact List.mem_cons_of_mem _
                ((List.dropWhile_suffix _).sublist.mem (ih hw hx))

theorem mem_joinWords {x : Char} :
    ∀ {ws : List (List Char)}, x ∈ joinWords ws → x = ' ' ∨ ∃ w ∈ ws, x ∈ w := by
  intro ws
  induction ws with
  | nil => intro hx; simp [joinWords] at hx
  | cons w ws ih =>
      intro hx
      cases ws with
      | nil =>
          right
          exact ⟨w, List.mem_cons_self _ _, hx⟩
      | cons w2 ws2 =>
          rw [show joinWords (w :: w2 :: ws2) = w ++ ' ' :: joinWords (w2 :: ws2)
            from rfl] at hx
          rcases List.mem_append.mp hx with hx | hx
          · exact Or.inr ⟨w, List.mem_cons_self _ _, hx⟩
          · rcases List.mem_cons.mp hx with rfl | hx
            · exact Or.inl rfl
            · rcases ih hx with h0 | ⟨w0, hw0, hxw0⟩
              · exact Or.inl h0
              · exact Or.inr ⟨w0, List.mem_cons_of_mem _ hw0, hxw0⟩

/-- The cleaned name never contains the delimiter `'/'`. -/
theorem slash_not_mem_clean (x : List Char) : '/' ∉ clean_product_name x := by
  intro hmem
  have h1 : '/' ∈ joinWords (words (subTag (excludePatterns.foldl
      (fun acc p => removeAllSub p acc)
      (if '/' ∈ x then pyStrip (beforeFirstSlash x) else x)))) := mem_pyStrip hmem
  rcases mem_joinWords h1 with h0 | ⟨w, hw, hxw⟩
  · exact absurd h0 (by decide)
  · have h2 := mem_wordsF hw hxw
    have h3 := mem_subTagF h2
    have h4 := mem_foldl_removeAllSub h3
    by_cases hx : '/' ∈ x
    · rw [if_pos hx] at h4
      have h5 := mem_pyStrip h4
      have h6 := List.mem_takeWhile_imp h5
      simp at h6
    · rw [if_neg hx] at h4
      exact hx h4

theorem getLast?_mem {l : List Char} {a : Char} (h : l.getLast? = some a) : a ∈ l := by
  rw [← List.head?_reverse] at h
  exact List.mem_reverse.mp (List.mem_of_mem_head? h)

theorem head?_append_left {l₁ l₂ : List Char} (h : l₁ ≠ []) :
    (l₁ ++ l₂).head? = l₁.head? := by
  cases l₁ with
  | nil => exact absurd rfl h
  | cons a t => rfl

/-- A word produced by `words` is nonempty and whitespace-free. -/
theorem wordsF_good :
    ∀ (f : Nat) (s : List Char), s.length ≤ f → ∀ w ∈ wordsF f s,
      w ≠ [] ∧ ∀ c ∈ w, pySpace c = false := by
  intro f
  induction f with
  | zero =>
      intro s hs w hw
      have : s = [] := List.length_eq_zero.mp (Nat.le_zero.mp hs)
      subst this
      simp [wordsF] at hw
  | succ f ih =>
      intro s hs w hw
      cases s with
      | nil => simp [wordsF] at hw
      | cons c cs =>
          by_cases hsp : pySpace c
          · rw [show wordsF (f+1) (c :: cs) = wordsF f cs from by
                  show (if pySpace c then _ else _) = _
                  rw [if_pos hsp]] at hw
            exact ih cs (by simpa using Nat.le_of_succ_le_succ hs) w hw
          · rw [show wordsF (f+1) (c :: cs) =
                (c :: cs.takeWhile (fun y => !pySpace y)) ::
                  wordsF f (cs.dropWhile (fun y => !pySpace y)) from by
                  show (if pySpace c then _ else _) = _
                  rw [if_neg hsp]] at hw
            rcases List.mem_cons.mp hw with rfl | hw
            · refine ⟨by simp, ?_⟩
              intro x hx
              rcases List.mem_cons.mp hx with rfl | hx
              · exact Bool.eq_false_iff.mpr hsp
              · have := List.mem_takeWhile_imp hx
                simpa using this
            · have hlen : (cs.dropWhile (fun y => !pySpace y)).length ≤ f := by
                have h1 : (cs.dropWhile (fun y => !pySpace y)).length ≤ cs.length :=
                  (List.dropWhile_suffix _).sublist.length_le
                have h2 : cs.length ≤ f := by simpa using Nat.le_of_succ_le_succ hs
                omega
              exact ih _ hlen w hw

theorem takeWhile_append_of_all {p : Char → Bool} :
    ∀ {a : List Char} (b : List Char), (∀ c ∈ a, p c = true) →
      (a ++ b).takeWhile p = a ++ b.takeWhile p := by
  intro a
  induction a with
  | nil => intro b _; rfl
  | cons x xs ih =>
      intro b H
      have hx : p x = true := H x (List.mem_cons_self _ _)
      show ((x :: (xs ++ b)).takeWhile p) = x :: (xs ++ b.takeWhile p)
      rw [List.takeWhile_cons, if_pos hx]
      rw [ih b (fun c hc => H c (List.mem_cons_of_mem _ hc))]

theorem dropWhile_append_of_all {p : Char → Bool} :
    ∀ {a : List Char} (b : List Char), (∀ c ∈ a, p c = true) →
      (a ++ b).dropWhile p = b.dropWhile p := by
  intro a
  induction a with
  | nil => intro b _; rfl
  | cons x xs ih =>
      intro b H
      have hx : p x = true := H x (List.mem_cons_self _ _)
      show ((x :: (xs ++ b)).dropWhile p) = b.dropWhile p
      rw [List.dropWhile_cons, if_pos hx]
      exact ih b (fun c hc => H c (List.mem_cons_of_mem _ hc))

/-- `words` undoes `joinWords` on lists of nonempty whitespace-free words. -/
theorem wordsF_joinWords :
    ∀ (ws : List (List Char)),
      (∀ w ∈ ws, w ≠ [] ∧ ∀ c ∈ w, pySpace c = false) →
      ∀ f, (joinWords ws).length ≤ f → wordsF f (joinWords ws) = ws := by
  intro ws
  induction ws with
  | nil =>
      intro _ f _
      show wordsF f [] = []
      cases f <;> rfl
  | cons w ws ih =>
      intro H f hf
      obtain ⟨hwne, hwns⟩ := H w (List.mem_cons_self _ _)
      cases ws with
      | nil =>
          rcases w with _ | ⟨c, w'⟩
          · exact absurd rfl hwne
          · show wordsF f (c :: w') = [c :: w']
            have hc : pySpace c = false := hwns c (List.mem_cons_self _ _)
            have hw' : ∀ y ∈ w', (fun y => !pySpace y) y = true := by
              intro y hy
              simp [hwns y (List.mem_cons_of_mem _ hy)]
            rcases f with _ | f
            · exfalso
              have : (joinWords [c :: w']).length = w'.length + 1 := by
                simp [joinWords]
              omega
            · rw [show wordsF (f+1) (c :: w') =
                (if pySpace c then wordsF f w'
                 else (c :: w'.takeWhile (fun y => !pySpace y)) ::
                   wordsF f (w'.dropWhile (fun y => !pySpace y))) from rfl]
              rw [if_neg (by simp [hc])]
              rw [List.takeWhile_eq_self_iff.mpr hw']
              rw [List.dropWhile_eq_nil_iff.mpr hw']
              rcases f with _ | f <;> rfl
      | cons w2 ws2 =>
          rcases w with _ | ⟨c, w'⟩
          · exact absurd rfl hwne
          · have hc : pySpace c = false := hwns c (List.mem_cons_self _ _)
            have hw' : ∀ y ∈ w', (fun y => !pySpace y) y = true := by
              intro y hy
              simp [hwns y (List.mem_cons_of_mem _ hy)]
            have hJ : joinWords ((c :: w') :: w2 :: ws2) =
                c :: (w' ++ ' ' :: joinWords (w2 :: ws2)) := rfl
            rw [hJ] at hf ⊢
            rcases f with _ | f
            · exfalso
              simp at hf
            · rw [show wordsF (f+1) (c :: (w' ++ ' ' :: joinWords (w2 :: ws2))) =
                (if pySpace c then wordsF f (w' ++ ' ' :: joinWords (w2 :: ws2))
                 else (c :: (w' ++ ' ' :: joinWords (w2 :: ws2)).takeWhile
                     (fun y => !pySpace y)) ::
                   wordsF f ((w' ++ ' ' :: joinWords (w2 :: ws2)).dropWhile
                     (fun y => !pySpace y))) from rfl]
              rw [if_neg (by simp [hc])]
              rw [takeWhile_append_of_all _ hw', dropWhile_append_of_all _ hw']
              rw [show (' ' :: joinWords (w2 :: ws2)).takeWhile (fun y => !pySpace y)
                  = [] from by
                rw [List.takeWhile_cons]
                simp [pySpace]]
              rw [show (' ' :: joinWords (w2 :: ws2)).dropWhile (fun y => !pySpace y)
                  = ' ' :: joinWords (w2 :: ws2) from by
                rw [List.dropWhile_cons]
                simp [pySpace]]
              have hf' : (joinWords (w2 :: ws2)).length + 1 ≤ f := by
                rw [List.length_cons, List.length_append, List.length_cons] at hf
                omega
              rcases f with _ | f
              · omega
              · rw [show wordsF (f+1) (' ' :: joinWords (w2 :: ws2)) =
                    wordsF f (joinWords (w2 :: ws2)) from by
                  show (if pySpace ' ' then _ else _) = _
                  rw [if_pos (by decide)]]
                rw [ih (fun w0 hw0 => H w0 (List.mem_cons_of_mem _ hw0)) f (by omega)]
                simp

theorem joinWords_ne_nil {w : List Char} (hw : w ≠ []) (ws : List (List Char)) :
    joinWords (w :: ws) ≠ [] := by
  cases ws with
  | nil => exact hw
  | cons w2 ws2 =>
      show w ++ ' ' :: joinWords (w2 :: ws2) ≠ []
      simp

theorem joinWords_head?_nonspace {ws : List (List Char)}
    (H : ∀ w ∈ ws, w ≠ [] ∧ ∀ c ∈ w, pySpace c = false) :
    ∀ c, (joinWords ws).head? = some c → pySpace c = false := by
  intro c hc
  cases ws with
  | nil => simp [joinWords] at hc
  | cons w ws' =>
      obtain ⟨hwne, hwns⟩ := H w (List.mem_cons_self _ _)
      have hhead : (joinWords (w :: ws')).head? = w.head? := by
        cases ws' with
        | nil => rfl
        | cons w2 ws2 => exact head?_append_left hwne
      rw [hhead] at hc
      exact hwns c (List.mem_of_mem_head? hc)

theorem joinWords_getLast?_nonspace :
    ∀ {ws : List (List Char)},
      (∀ w ∈ ws, w ≠ [] ∧ ∀ c ∈ w, pySpace c = false) →
      ∀ c, (joinWords ws).getLast? = some c → pySpace c = false := by
  intro ws
  induction ws with
  | nil => intro _ c hc; simp [joinWords] at hc
  | cons w ws' ih =>
      intro H c hc
      obtain ⟨hwne, hwns⟩ := H w (List.mem_cons_self _ _)
      cases ws' with
      | nil => exact hwns c (getLast?_mem hc)
      | cons w2 ws2 =>
          have hJne : joinWords (w2 :: ws2) ≠ [] :=
            joinWords_ne_nil (H w2 (by simp)).1 ws2
          rw [show joinWords (w :: w2 :: ws2) = w ++ ' ' :: joinWords (w2 :: ws2)
              from rfl] at hc
          rw [List.getLast?_append_of_ne_nil w (by simp)] at hc
          rw [show (' ' :: joinWords (w2 :: ws2)) = [' '] ++ joinWords (w2 :: ws2)
              from rfl] at hc
          rw [List.getLast?_append_of_ne_nil [' '] hJne] at hc
          exact ih (fun w0 hw0 => H w0 (List.mem_cons_of_mem _ hw0)) c hc

/-- The composition of the first three cleaning steps ('/'-truncation,
phrase removal, tag removal); `clean_product_name` is this followed by
whitespace normalisation. -/
def cleanCore (z : List Char) : List Char :=
  subTag (excludePatterns.foldl (fun acc p => removeAllSub p acc)
    (if '/' ∈ z then pyStrip (beforeFirstSlash z) else z))

theorem clean_eq (z : List Char) :
    clean_product_name z = pyStrip (joinWords (words (cleanCore z))) := rfl

theorem words_good (y : List Char) :
    ∀ w ∈ words y, w ≠ [] ∧ ∀ c ∈ w, pySpace c = false :=
  wordsF_good y.length y (Nat.le_refl _)

/-- The cleaner's final trim is a no-op: the join of its words already has
no boundary whitespace. -/
theorem clean_join (z : List Char) :
    clean_product_name z = joinWords (words (cleanCore z)) := by
  rw [clean_eq]
  exact pyStrip_noop (joinWords_head?_nonspace (words_good _))
    (joinWords_getLast?_nonspace (words_good _))

/-- C4 amended: the Name Cleaner is idempotent on every input whose cleaned
form contains no further occurrence of a boilerplate phrase and no further
buyer-tag match — in general a second application can strip more, because
removing phrases or tags can juxtapose fragments into new matches (see the
counterexample: cleaning `"ab1cd2"` leaves `"ab1"`, which now ends the
string and so matches the tag pattern on a second pass). -/
theorem c4_clean_idempotent_of (x : List Char)
    (h1 : ∀ p ∈ excludePatterns, ∀ t ∈ (clean_product_name x).tails,
      p.isPrefixOf t = false)
    (h2 : ∀ t ∈ (clean_product_name x).tails, tagSplit t = none) :
    clean_product_name (clean_product_name x) = clean_product_name x := by
  have hslash : '/' ∉ clean_product_name x := slash_not_mem_clean x
  have hcore : cleanCore (clean_product_name x) = clean_product_name x := by
    unfold cleanCore
    rw [if_neg hslash]
    rw [foldl_removeAllSub_noop h1]
    exact subTagF_noop _ _ h2
  have hjoin := clean_join x
  have hww : words (joinWords (words (cleanCore x))) = words (cleanCore x) := by
    show wordsF (joinWords (words (cleanCore x))).length
        (joinWords (words (cleanCore x))) = words (cleanCore x)
    exact wordsF_joinWords _ (words_good _) _ (Nat.le_refl _)
  have e1 : clean_product_name (clean_product_name x) =
      pyStrip (joinWords (words (cleanCore (clean_product_name x)))) :=
    clean_eq _
  have e2 : pyStrip (joinWords (words (cleanCore (clean_product_name x)))) =
      pyStrip (joinWords (words (clean_product_name x))) :=
    congrArg (fun t => pyStrip (joinWords (words t))) hcore
  have e3 : pyStrip (joinWords (words (clean_product_name x))) =
      pyStrip (joinWords (words (joinWords (words (cleanCore x))))) :=
    congrArg (fun t => pyStrip (joinWords (words t))) hjoin
  have e4 : pyStrip (joinWords (words (joinWords (words (cleanCore x))))) =
      pyStrip (joinWords (words (cleanCore x))) :=
    congrArg (fun t => pyStrip (joinWords t)) hww
  have e5 : pyStrip (joinWords (words (cleanCore x))) = clean_product_name x :=
    (clean_eq x).symm
  exact ((((e1.trans e2).trans e3).trans e4).trans e5)

/-- C4 amended witness: `"꿀사과"` cleans to itself and satisfies both
provisos, so a second cleaning changes nothing. -/
theorem c4_clean_idempotent_of_witness :
    (∀ p ∈ excludePatterns, ∀ t ∈ (clean_product_name "꿀사과".data).tails,
      p.isPrefixOf t = false) ∧
    (∀ t ∈ (clean_product_name "꿀사과".data).tails, tagSplit t = none) ∧
    clean_product_name (clean_product_name "꿀사과".data) =
      clean_product_name "꿀사과".data :=
  ⟨by decide, by decide,
    c4_clean_idempotent_of "꿀사과".data (by decide) (by decide)⟩
